import Mathlib

/-!
Shallow embedding of `src/covid.py`, a script that downloads a UK Covid-19
case CSV and renders bar charts.  Python strings are modelled as `List Char`;
datetimes produced by `strptime('%Y-%m-%d')` are encoded as the natural
number `y * 10000 + m * 100 + d` (order-isomorphic to the datetime order for
valid dates), while the file-modification arithmetic of `update_csv` and
`mod_last_5days` works in seconds since the epoch, so that
`timedelta(days=k)` is `k * 86400`.  The parts of the script that touch the
file system or matplotlib are modelled as pure state-passing functions.
-/

/-- Python strings, modelled as lists of characters. -/
abbrev Str := List Char

/-- Split a string at every occurrence of `sep`, returning the first field
and the list of remaining fields.  This models Python `str.split(sep)`,
which always returns at least one (possibly empty) field. -/
def splitSep (sep : Char) : Str → Str × List Str
  | [] => ([], [])
  | c :: rest =>
    let (f, fs) := splitSep sep rest
    if c = sep then ([], f :: fs) else (c :: f, fs)

/-- All the fields of `str.split(sep)` as one list. -/
def splitFull (sep : Char) (s : Str) : List Str :=
  (splitSep sep s).1 :: (splitSep sep s).2

/-- Python `str.strip()`: remove leading and trailing whitespace. -/
def pyStrip (s : Str) : Str :=
  ((s.dropWhile Char.isWhitespace).reverse.dropWhile Char.isWhitespace).reverse

/-- Nonempty and consisting solely of decimal digits. -/
def allDigits (s : Str) : Bool := !s.isEmpty && s.all Char.isDigit

/-- Numeric value of a digit string. -/
def digitsVal (s : Str) : Nat := s.foldl (fun n c => 10 * n + (c.toNat - 48)) 0

/-- Python `int(s)` on a string: optional surrounding whitespace, optional
sign, then decimal digits; anything else raises `ValueError` (`none`). -/
def pyInt (s : Str) : Option Int :=
  match pyStrip s with
  | '-' :: ds => if allDigits ds then some (-(digitsVal ds : Int)) else none
  | '+' :: ds => if allDigits ds then some ((digitsVal ds : Int)) else none
  | ds => if allDigits ds then some ((digitsVal ds : Int)) else none

/-- Gregorian leap-year rule, as `datetime` validates dates. -/
def isLeap (y : Nat) : Bool := y % 4 == 0 && (y % 100 != 0 || y % 400 == 0)

/-- Number of days in a month, as `datetime` validates dates. -/
def daysInMonth (y m : Nat) : Nat :=
  if m = 2 then (if isLeap y then 29 else 28)
  else if m = 4 ∨ m = 6 ∨ m = 9 ∨ m = 11 then 30 else 31

/-- Model of `datetime.datetime.strptime(s, '%Y-%m-%d')`: exactly four year
digits, one or two month digits, one or two day digits, separated by `-`,
with the month, day and year ranges validated; the resulting midnight
datetime is encoded as `y * 10000 + m * 100 + d`. -/
def parseDate (s : Str) : Option Nat :=
  match splitFull '-' s with
  | [ys, ms, ds] =>
    if allDigits ys ∧ ys.length = 4 ∧ allDigits ms ∧ ms.length ≤ 2
        ∧ allDigits ds ∧ ds.length ≤ 2 then
      let y := digitsVal ys
      let m := digitsVal ms
      let d := digitsVal ds
      if 1 ≤ y ∧ 1 ≤ m ∧ m ≤ 12 ∧ 1 ≤ d ∧ d ≤ daysInMonth y m then
        some (y * 10000 + m * 100 + d)
      else none
    else none
  | _ => none

/-- Worker for Python `str.replace(pat, rep)` with a non-empty `pat`: scan
left to right replacing non-overlapping occurrences.  `skip` counts the
characters of an already-replaced occurrence still to be dropped. -/
def raAux (pat rep : Str) : Str → Nat → Str
  | [], _ => []
  | _ :: rest, n + 1 => raAux pat rep rest n
  | c :: rest, 0 =>
    if pat.isPrefixOf (c :: rest) then rep ++ raAux pat rep rest (pat.length - 1)
    else c :: raAux pat rep rest 0

/-- Python `str.replace(pat, rep)` for non-empty `pat`. -/
def replaceAll (pat rep s : Str) : Str := raAux pat rep s 0

/-- Worker for Python `str.split()` with no argument: maximal runs of
non-whitespace characters; `acc` holds the current word reversed. -/
def wordsAux : Str → Str → List Str
  | [], acc => if acc.isEmpty then [] else [acc.reverse]
  | c :: rest, acc =>
    if c.isWhitespace then
      if acc.isEmpty then wordsAux rest [] else acc.reverse :: wordsAux rest []
    else wordsAux rest (c :: acc)

/-- Python `str.split()` with no argument. -/
def pySplit (s : Str) : List Str := wordsAux s []

/-- `kind_label` from covid.py: a multi-word kind becomes the uppercased
string of the words' first characters, a single-word kind is returned
unchanged. -/
def kind_label (kind : Str) : Str :=
  let words := pySplit kind
  if 1 < words.length then
    ((words.map (fun w => w.take 1)).flatten).map Char.toUpper
  else kind

/-- The embedded-comma location name rewritten away in `get_values`. -/
def bristolPat : Str := "\"Bristol, City of\"".data

/-- Its comma-free replacement. -/
def bristolRep : Str := "City of Bristol".data

/-- `line.replace('"Bristol, City of"', 'City of Bristol')` followed by
`line.split(',')`, as the first field plus the remaining fields. -/
def lineParts (line : Str) : Str × List Str :=
  splitSep ',' (replaceAll bristolPat bristolRep line)

/-- The row-selection test `parts[0].strip() == location` of `get_values`. -/
def matchesLoc (location line : Str) : Bool :=
  pyStrip (lineParts line).1 == location

/-- `parts[3]`, the date field (index 2 of the tail fields). -/
def lineDate (line : Str) : Str := (lineParts line).2.getD 2 []

/-- `parts[4]`, the count field. -/
def lineCount (line : Str) : Str := (lineParts line).2.getD 3 []

/-- `parts[2]`, the kind field. -/
def lineKind (line : Str) : Str := (lineParts line).2.getD 1 []

/-- The row-scanning loop of `get_values`: accumulates `date_strings`,
`num_cases` and the last-seen `kind`, signalling (as `Except.error`) where
Python would raise `IndexError` or `ValueError`. -/
def scanLines (location : Str) :
    List Str → List Str → List Int → Option Str →
      Except String (List Str × List Int × Option Str)
  | [], ds, cs, k => .ok (ds, cs, k)
  | line :: rest, ds, cs, k =>
    if matchesLoc location line then
      match (lineParts line).2.get? 2 with
      | none => .error "list index out of range"
      | some d =>
        if d ∈ ds then scanLines location rest ds cs k
        else
          match (lineParts line).2.get? 3 with
          | none => .error "list index out of range"
          | some cstr =>
            match pyInt cstr with
            | none => .error "invalid literal for int"
            | some n =>
              scanLines location rest (ds ++ [d]) (cs ++ [n]) (some (lineKind line))
    else scanLines location rest ds cs k

/-- The comprehension `[strptime(dt, '%Y-%m-%d') for dt in date_strings]`,
failing if any entry fails to parse. -/
def mapParseDates : List Str → Option (List Nat)
  | [] => some []
  | d :: rest =>
    match parseDate d, mapParseDates rest with
    | some x, some xs => some (x :: xs)
    | _, _ => none

/-- The successful result of `get_values`.  `date_strings` records the raw
date fields (the loop's `date_strings` list); `dates` holds their parsed
forms, as returned. -/
structure SeriesData where
  date_strings : List Str
  dates : List Nat
  num_cases : List Int
  kind : Str
deriving DecidableEq

/-- `get_values` from covid.py, over an explicit list of CSV lines. -/
def get_values (lines : List Str) (location : Str) : Except String SeriesData :=
  match scanLines location lines [] [] none with
  | .error e => .error e
  | .ok (ds, cs, k) =>
    match mapParseDates ds with
    | none => .error "time data does not match format"
    | some dates =>
      if ds.isEmpty then .error ("No data found for " ++ String.mk location ++ ".")
      else
        match k with
        | some kk => .ok ⟨ds, dates, cs, kk⟩
        | none => .error "kind referenced before assignment"

/-- `timedelta.days`: floor division of the elapsed seconds by 86400. -/
def tdDays (secs : Int) : Int := Int.fdiv secs 86400

/-- The observable file-system state manipulated by `update_csv`: the data
file's modification time (seconds since the epoch, `none` when the file is
absent) plus counters of the `os.remove` and `wget` calls performed. -/
structure FileState where
  mtime : Option Int
  fetches : Nat
  removes : Nat
deriving DecidableEq

/-- `update_csv` from covid.py: `now` is `datetime.now()`, `newMtime` the
modification time the freshly downloaded file would carry. -/
def update_csv (now newMtime : Int) (s : FileState) : FileState :=
  match s.mtime with
  | some m =>
    if tdDays (now - m) = 0 then s
    else { mtime := some newMtime, fetches := s.fetches + 1, removes := s.removes + 1 }
  | none => { mtime := some newMtime, fetches := s.fetches + 1, removes := s.removes }

/-- `mod_last_5days` from covid.py with a bar's hatch state as a `Bool`:
`zip(dates, bars)` pairs the two lists (stopping at the shorter one, bars
beyond it keeping their state) and hatches every bar whose date exceeds the
file's modification time minus `timedelta(days=6)`; times in seconds. -/
def mod_last_5days (fileTime : Int) (dates : List Int) (bars : List Bool) : List Bool :=
  List.zipWith (fun d b => if fileTime - 6 * 86400 < d then true else b) dates bars
    ++ bars.drop dates.length

/-- Insert a value into a sorted duplicate-free list, keeping it sorted and
duplicate-free. -/
def insertSorted (d : Nat) : List Nat → List Nat
  | [] => [d]
  | x :: xs =>
    if d < x then d :: x :: xs
    else if d = x then x :: xs
    else x :: insertSorted d xs

/-- `np.unique`: the sorted list of distinct values. -/
def npUnique (l : List Nat) : List Nat := l.foldr insertSorted []

/-- `np.unique(np.concatenate([...]))` over the series' date lists, as in
`plot_devon`. -/
def all_dates (seriesDates : List (List Nat)) : List Nat := npUnique seriesDates.flatten

/-- Lexicographic comparison of `(date, count)` pairs, the order Python's
`sorted` uses on 2-tuples. -/
def leDC (p q : Nat × Int) : Prop := p.1 < q.1 ∨ (p.1 = q.1 ∧ p.2 ≤ q.2)

instance : DecidableRel leDC := fun p q => by unfold leDC; exact inferInstance

instance : IsTotal (Nat × Int) leDC := ⟨fun a b => by unfold leDC; omega⟩

instance : IsTrans (Nat × Int) leDC := ⟨fun a b c => by unfold leDC; omega⟩

/-- The dates of the union axis absent from this series, in axis order: the
dates the alignment loop of `plot_devon` appends with count 0. -/
def missingDates (allDates dates : List Nat) : List Nat :=
  allDates.filter (fun d => decide (¬ d ∈ dates))

/-- The `(date, count)` pairs of one series after the loop appended the
missing dates with count 0 (`zip(dates, num_cases)` of the extended lists). -/
def alignPairs (allDates dates : List Nat) (counts : List Int) : List (Nat × Int) :=
  (dates ++ missingDates allDates dates).zip
    (counts ++ (missingDates allDates dates).map (fun _ => (0 : Int)))

/-- The per-location body of `plot_devon`'s alignment loop: append the union
dates missing from this series's `dates` with count 0, sort the
`(date, count)` pairs as Python's `sorted` does, and keep the counts. -/
def alignOne (allDates dates : List Nat) (counts : List Int) : List Int :=
  (List.insertionSort leDC (alignPairs allDates dates counts)).map Prod.snd

/-- One iteration of `plot_devon`'s plotting loop acting on the running
`bottom` array: Exeter is overplotted and leaves the stack height unchanged,
every other location's counts are added (`bottom = num_cases + bottom`).
The initial scalar `bottom = 0` is modelled as an all-zero array. -/
def stackStep (bottom : List Int) (layer : String × List Int) : List Int :=
  if layer.1 = "Exeter" then bottom
  else List.zipWith (fun v b => v + b) layer.2 bottom

/-- The running stack height after all layers have been drawn. -/
def stackFinal (layers : List (String × List Int)) (bottom : List Int) : List Int :=
  layers.foldl stackStep bottom

/-- The `bottom` array passed to `plt.bar` for each successive layer. -/
def stackBottoms (layers : List (String × List Int)) (bottom : List Int) : List (List Int) :=
  match layers with
  | [] => []
  | layer :: rest => bottom :: stackBottoms rest (stackStep bottom layer)

/-- `plot_devon`'s fixed layer order, with the four series' aligned counts. -/
def devonLayers (e d t p : List Int) : List (String × List Int) :=
  [("Exeter", e), ("Devon", d), ("Torbay", t), ("Plymouth", p)]

/-- A five-field CSV row, written with the comma separators explicit. -/
def csvRow (loc code kind date count : Str) : Str :=
  loc ++ (',' :: (code ++ (',' :: (kind ++ (',' :: (date ++ (',' :: count)))))))

/-- A line whose selection by `get_values` cannot raise: whenever the line
matches the location, it has at least four tail fields, an integer count
field and a date field in `%Y-%m-%d` form.  Rows of the CSV have this
shape. -/
abbrev WFline (location line : Str) : Prop :=
  matchesLoc location line = true →
    3 < (lineParts line).2.length
    ∧ (pyInt (lineCount line)).isSome = true
    ∧ (parseDate (lineDate line)).isSome = true

/-- The first row of `lines` that matches `location` and bears the date
field `d`. -/
def findRow (location : Str) (lines : List Str) (d : Str) : Option Str :=
  lines.find? (fun l => matchesLoc location l && (lineDate l == d))

/-- The sample data row used in concrete witnesses. -/
def sampleRow : Str :=
  "\"Bristol, City of\",E06000023,Upper Tier Local Authority,2020-04-06,304".data

/-- Concrete CSV lines used in witnesses: two distinct Devon dates, a
duplicate Devon date with a different count (ignored by first-seen-wins) and
a row for a different location. -/
def devonLines : List Str :=
  ["Devon,E10000008,Upper Tier Local Authority,2020-04-05,301".data,
   "Devon,E10000008,Upper Tier Local Authority,2020-04-06,306".data,
   "Devon,E10000008,Upper Tier Local Authority,2020-04-06,999".data,
   "Torbay,E06000027,Upper Tier Local Authority,2020-04-05,80".data]

/-- Concrete series used in the alignment witness: two series over partially
overlapping date axes. -/
def alignWitnessSeries : List (List Nat × List Int) :=
  [([20200406, 20200401], [3, 5]), ([20200401], [2])]

/-! ### General list lemmas -/

theorem get?_zipWith {α β γ : Type} (f : α → β → γ) :
    ∀ (l1 : List α) (l2 : List β) (i : Nat) (a : α) (b : β),
      l1.get? i = some a → l2.get? i = some b →
        (List.zipWith f l1 l2).get? i = some (f a b) := by
  intro l1
  induction l1 with
  | nil => intro l2 i a b h; simp at h
  | cons x xs ih =>
    intro l2 i a b h1 h2
    cases l2 with
    | nil => simp at h2
    | cons y ys =>
      cases i with
      | zero =>
        simp only [List.get?] at h1 h2
        cases h1; cases h2; rfl
      | succ j =>
        simp only [List.get?] at h1 h2 ⊢
        exact ih ys j a b h1 h2

theorem get?_replicate_lt {α : Type} (a : α) :
    ∀ (n i : Nat), i < n → (List.replicate n a).get? i = some a := by
  intro n
  induction n with
  | zero => intro i h; omega
  | succ m ih =>
    intro i h
    cases i with
    | zero => rfl
    | succ j => exact ih j (by omega)

/-! ### `update_csv` (claims C5, C9) -/

theorem tdDays_eq_zero_iff (d : Int) : tdDays d = 0 ↔ 0 ≤ d ∧ d < 86400 := by
  rw [tdDays, Int.fdiv_eq_ediv d (by norm_num)]
  omega

/-- C9: the staleness test of `update_csv` is `timedelta.days == 0`, i.e. the
file is kept exactly when the elapsed interval since its modification time is
at least zero and below 24 hours, independent of calendar-day boundaries; a
modification time in the future (negative day count) also triggers deletion
and re-fetch. -/
theorem update_csv_staleness (now newMtime mt : Int) (s : FileState)
    (hm : s.mtime = some mt) :
    (tdDays (now - mt) = 0 ↔ 0 ≤ now - mt ∧ now - mt < 86400)
    ∧ (update_csv now newMtime s = s ↔ 0 ≤ now - mt ∧ now - mt < 86400)
    ∧ (now - mt < 0 ∨ 86400 ≤ now - mt →
        (update_csv now newMtime s).removes = s.removes + 1
        ∧ (update_csv now newMtime s).fetches = s.fetches + 1
        ∧ (update_csv now newMtime s).mtime = some newMtime) := by
  have hiff := tdDays_eq_zero_iff (now - mt)
  refine ⟨hiff, ?_, ?_⟩
  · by_cases h : tdDays (now - mt) = 0
    · simp only [update_csv, hm, if_pos h]
      exact ⟨fun _ => hiff.mp h, fun _ => trivial⟩
    · simp only [update_csv, hm, if_neg h]
      constructor
      · intro he
        exact absurd (congrArg FileState.fetches he) (by simp)
      · intro hw
        exact absurd (hiff.mpr hw) h
  · intro hcond
    have hz : ¬ tdDays (now - mt) = 0 := by rw [hiff]; omega
    simp only [update_csv, hm, if_neg hz]
    exact ⟨trivial, trivial, trivial⟩

theorem update_csv_staleness_witness :
    (update_csv 0 5 ⟨some 172800, 2, 3⟩).removes = 3 + 1
    ∧ (update_csv 0 5 ⟨some 172800, 2, 3⟩).fetches = 2 + 1
    ∧ (update_csv 0 5 ⟨some 172800, 2, 3⟩).mtime = some 5 :=
  (update_csv_staleness 0 5 172800 ⟨some 172800, 2, 3⟩ rfl).2.2 (by omega)

/-- A fetch happens exactly when the file is absent or the whole-day count of
its age is nonzero; it is accompanied by a removal exactly when the file was
present, and otherwise the state is untouched. -/
theorem update_csv_fetch_iff (now newMtime : Int) (s : FileState) :
    (s.fetches < (update_csv now newMtime s).fetches
      ↔ s.mtime = none ∨ ∃ mt, s.mtime = some mt ∧ tdDays (now - mt) ≠ 0)
    ∧ (s.fetches < (update_csv now newMtime s).fetches →
        (update_csv now newMtime s).removes
          = s.removes + (if s.mtime = none then 0 else 1))
    ∧ (¬ s.fetches < (update_csv now newMtime s).fetches →
        update_csv now newMtime s = s) := by
  cases hs : s.mtime with
  | none =>
    have hstep : update_csv now newMtime s
        = { mtime := some newMtime, fetches := s.fetches + 1, removes := s.removes } := by
      simp only [update_csv, hs]
    refine ⟨?_, ?_, ?_⟩
    · rw [hstep]
      simp only [hs]
      exact ⟨fun _ => Or.inl trivial, fun _ => by omega⟩
    · intro hw
      rw [hstep]
      simp [hs]
    · intro hw
      exact absurd (show s.fetches < (update_csv now newMtime s).fetches by
        rw [hstep]; exact Nat.lt_succ_self _) hw
  | some mt =>
    by_cases hz : tdDays (now - mt) = 0
    · have hstep : update_csv now newMtime s = s := by
        simp only [update_csv, hs, if_pos hz]
      refine ⟨?_, ?_, ?_⟩
      · rw [hstep]
        constructor
        · intro hw
          exact absurd hw (lt_irrefl _)
        · rintro (he | ⟨mt', hmt', hne⟩)
          · exact Option.noConfusion he
          · injection hmt' with h'
            rw [h'] at hz
            exact absurd hz hne
      · intro hw
        exact absurd hw (by rw [hstep]; exact lt_irrefl _)
      · intro hw
        exact hstep
    · have hstep : update_csv now newMtime s
        = { mtime := some newMtime, fetches := s.fetches + 1, removes := s.removes + 1 } := by
        simp only [update_csv, hs, if_neg hz]
      refine ⟨?_, ?_, ?_⟩
      · rw [hstep]
        exact ⟨fun _ => Or.inr ⟨mt, rfl, hz⟩, fun _ => Nat.lt_succ_self _⟩
      · intro hw
        rw [hstep]
        simp [hs]
      · intro hw
        exact absurd (show s.fetches < (update_csv now newMtime s).fetches by
          rw [hstep]; exact Nat.lt_succ_self _) hw

/-- C5 (amended): calling `update_csv` twice within the same day performs
exactly one fetch — the first call on an absent file fetches, and a second
call whose current time is within the 24-hour no-refetch window of the
file's unchanged modification time leaves the state untouched (no deletion,
no download); a fetch, preceded by deletion of any existing copy, occurs
exactly when the file is absent or the whole-day count of its age is
nonzero (positive or negative). -/
theorem update_csv_idempotent (s0 : FileState) (now1 m1 now2 m2 : Int)
    (habsent : s0.mtime = none) (h0 : 0 ≤ now2 - m1) (h1 : now2 - m1 < 86400) :
    (update_csv now1 m1 s0).mtime = some m1
    ∧ (update_csv now1 m1 s0).fetches = s0.fetches + 1
    ∧ (update_csv now1 m1 s0).removes = s0.removes
    ∧ update_csv now2 m2 (update_csv now1 m1 s0) = update_csv now1 m1 s0
    ∧ ∀ (now newMtime : Int) (s : FileState),
        (s.fetches < (update_csv now newMtime s).fetches
          ↔ s.mtime = none ∨ ∃ mt, s.mtime = some mt ∧ tdDays (now - mt) ≠ 0)
        ∧ (s.fetches < (update_csv now newMtime s).fetches →
            (update_csv now newMtime s).removes
              = s.removes + (if s.mtime = none then 0 else 1))
        ∧ (¬ s.fetches < (update_csv now newMtime s).fetches →
            update_csv now newMtime s = s) := by
  have hstep : update_csv now1 m1 s0
      = { mtime := some m1, fetches := s0.fetches + 1, removes := s0.removes } := by
    simp only [update_csv, habsent]
  refine ⟨by rw [hstep], by rw [hstep], by rw [hstep], ?_, update_csv_fetch_iff⟩
  rw [hstep]
  have hz : tdDays (now2 - m1) = 0 := by
    rw [tdDays_eq_zero_iff]; omega
  simp only [update_csv, if_pos hz]

theorem update_csv_idempotent_witness :
    (0 : Int) ≤ 80000 - 900 ∧ (80000 : Int) - 900 < 86400
    ∧ update_csv 80000 7 (update_csv 1000 900 ⟨none, 0, 0⟩)
        = update_csv 1000 900 ⟨none, 0, 0⟩
    ∧ (update_csv 1000 900 ⟨none, 0, 0⟩).fetches = 0 + 1 :=
  ⟨by omega, by omega,
    (update_csv_idempotent ⟨none, 0, 0⟩ 1000 900 80000 7 rfl (by omega) (by omega)).2.2.2.1,
    (update_csv_idempotent ⟨none, 0, 0⟩ 1000 900 80000 7 rfl (by omega) (by omega)).2.1⟩

/-- C5 counterexample: when the file is present but its modification time
lies two days in the future, `update_csv` performs a fetch although the file
is neither absent nor has an age in whole days exceeding zero; so it is
false that a fetch occurs only when the file is absent or its age in whole
days exceeds zero. -/
theorem update_csv_fetch_only_when_positive_age_false :
    ¬ ∀ (now newMtime : Int) (s : FileState),
        s.fetches < (update_csv now newMtime s).fetches →
          s.mtime = none ∨ ∃ mt, s.mtime = some mt ∧ 0 < tdDays (now - mt) := by
  intro h
  have hneg : tdDays ((0 : Int) - 172800) < 0 := by
    rw [tdDays, Int.fdiv_eq_ediv _ (by norm_num)]
    omega
  have hfetch : (⟨some 172800, 0, 0⟩ : FileState).fetches
      < (update_csv 0 5 ⟨some 172800, 0, 0⟩).fetches := by
    have hz : ¬ tdDays ((0 : Int) - 172800) = 0 := by omega
    simp only [update_csv, if_neg hz]
    omega
  rcases h 0 5 ⟨some 172800, 0, 0⟩ hfetch with he | ⟨mt, hmt, hpos⟩
  · exact Option.noConfusion he
  · injection hmt with h'
    rw [← h'] at hpos
    omega

/-! ### `mod_last_5days` (claim C6) -/

theorem mod_last_5days_replicate (fileTime : Int) (dates : List Int) :
    mod_last_5days fileTime dates (List.replicate dates.length false)
      = dates.map (fun d => decide (fileTime - 6 * 86400 < d)) := by
  rw [mod_last_5days]
  rw [List.drop_of_length_le (by simp)]
  rw [List.append_nil]
  induction dates with
  | nil => rfl
  | cons d rest ih =>
    simp only [List.length_cons, List.replicate_succ, List.zipWith_cons_cons, List.map_cons]
    rw [ih]
    by_cases h : fileTime - 6 * 86400 < d
    · rw [if_pos h, decide_eq_true h]
    · rw [if_neg h, decide_eq_false h]

/-- C6: starting from unhatched bars, `mod_last_5days` hatches exactly the
bars whose date lies in the trailing window of the six days ending at the
data file's modification time (for data no newer than the file), and leaves
bars dated at or before the window's start unhatched. -/
theorem mod_last_5days_spec (fileTime : Int) (dates : List Int) (bars : List Bool)
    (hbars : bars = List.replicate dates.length false)
    (hdates : ∀ d ∈ dates, d ≤ fileTime) :
    (mod_last_5days fileTime dates bars).length = dates.length
    ∧ ∀ i d, dates.get? i = some d →
        ((mod_last_5days fileTime dates bars).get? i = some true ↔
          fileTime - 6 * 86400 < d ∧ d ≤ fileTime)
        ∧ ((mod_last_5days fileTime dates bars).get? i = some false ↔
          d ≤ fileTime - 6 * 86400) := by
  subst hbars
  rw [mod_last_5days_replicate]
  refine ⟨by simp, ?_⟩
  intro i d hd
  have hget : (dates.map fun d => decide (fileTime - 6 * 86400 < d)).get? i
      = some (decide (fileTime - 6 * 86400 < d)) := by
    simp only [List.get?_eq_getElem?] at hd ⊢
    rw [List.getElem?_map, hd]
    rfl
  rw [hget]
  have hmem : d ∈ dates := List.get?_mem hd
  have hle : d ≤ fileTime := hdates d hmem
  constructor
  · constructor
    · intro h
      have : decide (fileTime - 6 * 86400 < d) = true := by
        injection h
      exact ⟨of_decide_eq_true this, hle⟩
    · intro h
      rw [decide_eq_true h.1]
  · constructor
    · intro h
      have : decide (fileTime - 6 * 86400 < d) = false := by
        injection h
      have := of_decide_eq_false this
      omega
    · intro h
      rw [decide_eq_false (by omega)]

theorem mod_last_5days_spec_witness :
    ([400000, 900000] : List Int) = [400000, 900000]
    ∧ (mod_last_5days 1000000 [400000, 900000]
        (List.replicate 2 false)).get? 1 = some true :=
  ⟨rfl,
    (((mod_last_5days_spec 1000000 [400000, 900000] (List.replicate 2 false)
      rfl (by intro d hd; fin_cases hd <;> omega)).2 1 900000 rfl).1).mpr (by omega)⟩

/-! ### `plot_devon` stacking (claim C3) -/

theorem stackStep_exeter (b : List Int) (v : List Int) :
    stackStep b ("Exeter", v) = b := by
  simp [stackStep]

theorem stackStep_other (b v : List Int) (name : String) (h : name ≠ "Exeter") :
    stackStep b (name, v) = List.zipWith (fun x y => x + y) v b := by
  simp [stackStep, h]

/-- C3: in the composite Devon chart, the `bottom` passed to the successive
layers Exeter, Devon, Torbay, Plymouth accumulates only Devon's and Torbay's
counts (Exeter's layer leaves it unchanged), the final stack top at every
date equals Devon + Torbay + Plymouth there, and Exeter's counts never enter
the running height (the final height does not depend on them). -/
theorem plot_devon_stack_spec (n : Nat) (e d t p : List Int)
    (he : e.length = n) (hd : d.length = n) (ht : t.length = n) (hp : p.length = n) :
    stackBottoms (devonLayers e d t p) (List.replicate n 0)
      = [List.replicate n 0, List.replicate n 0,
          List.zipWith (fun x y => x + y) d (List.replicate n 0),
          List.zipWith (fun x y => x + y) t
            (List.zipWith (fun x y => x + y) d (List.replicate n 0))]
    ∧ (∀ i dv tv pv, d.get? i = some dv → t.get? i = some tv → p.get? i = some pv →
        (stackFinal (devonLayers e d t p) (List.replicate n 0)).get? i
          = some (dv + tv + pv))
    ∧ ∀ e' : List Int, stackFinal (devonLayers e' d t p) (List.replicate n 0)
        = stackFinal (devonLayers e d t p) (List.replicate n 0) := by
  have hde : ("Devon" : String) ≠ "Exeter" := by decide
  have hte : ("Torbay" : String) ≠ "Exeter" := by decide
  have hpe : ("Plymouth" : String) ≠ "Exeter" := by decide
  refine ⟨?_, ?_, ?_⟩
  · simp only [devonLayers, stackBottoms, stackStep_exeter,
      stackStep_other _ _ _ hde, stackStep_other _ _ _ hte]
  · intro i dv tv pv hdv htv hpv
    have hin : i < n := by
      obtain ⟨hlt, -⟩ := List.get?_eq_some.mp hdv
      omega
    have hfin : stackFinal (devonLayers e d t p) (List.replicate n 0)
        = List.zipWith (fun x y => x + y) p (List.zipWith (fun x y => x + y) t
            (List.zipWith (fun x y => x + y) d (List.replicate n 0))) := by
      simp only [stackFinal, devonLayers, List.foldl, stackStep_exeter,
        stackStep_other _ _ _ hde, stackStep_other _ _ _ hte, stackStep_other _ _ _ hpe]
    rw [hfin]
    have h0 : (List.replicate n (0 : Int)).get? i = some 0 := get?_replicate_lt 0 n i hin
    have h1 := get?_zipWith (fun x y => x + y) d (List.replicate n 0) i dv 0 hdv h0
    have h2 := get?_zipWith (fun x y => x + y) t _ i tv (dv + 0) htv h1
    have h3 := get?_zipWith (fun x y => x + y) p _ i pv (tv + (dv + 0)) hpv h2
    rw [h3]
    congr 1
    ring
  · intro e'
    simp only [stackFinal, devonLayers, List.foldl, stackStep_exeter]

theorem plot_devon_stack_spec_witness :
    (stackFinal (devonLayers [1, 2] [3, 4] [5, 6] [7, 8]) (List.replicate 2 0)).get? 0
      = some (3 + 5 + 7) :=
  (plot_devon_stack_spec 2 [1, 2] [3, 4] [5, 6] [7, 8] rfl rfl rfl rfl).2.1
    0 3 5 7 rfl rfl rfl

/-! ### `kind_label` (claim C7) -/

theorem wordsAux_ne_nil : ∀ (s acc : Str) (w : Str), w ∈ wordsAux s acc → w ≠ [] := by
  intro s
  induction s with
  | nil =>
    intro acc w hw
    rw [wordsAux] at hw
    by_cases h : acc.isEmpty
    · rw [if_pos h] at hw
      simp at hw
    · rw [if_neg h] at hw
      simp only [List.mem_singleton] at hw
      subst hw
      simp only [ne_eq, List.reverse_eq_nil_iff]
      intro hc
      rw [hc] at h
      simp at h
  | cons c rest ih =>
    intro acc w hw
    rw [wordsAux] at hw
    by_cases hws : c.isWhitespace
    · rw [if_pos hws] at hw
      by_cases h : acc.isEmpty
      · rw [if_pos h] at hw
        exact ih [] w hw
      · rw [if_neg h] at hw
        rcases List.mem_cons.mp hw with h1 | h2
        · subst h1
          simp only [ne_eq, List.reverse_eq_nil_iff]
          intro hc
          rw [hc] at h
          simp at h
        · exact ih [] w h2
    · rw [if_neg hws] at hw
      exact ih (c :: acc) w hw

theorem pySplit_ne_nil (s : Str) (w : Str) (hw : w ∈ pySplit s) : w ≠ [] :=
  wordsAux_ne_nil s [] w hw

theorem flatten_take_one_upper :
    ∀ (words : List Str), (∀ w ∈ words, w ≠ []) →
      ((words.map (fun w => w.take 1)).flatten).map Char.toUpper
        = words.map (fun w => Char.toUpper (w.headD ' ')) := by
  intro words
  induction words with
  | nil => intro _; rfl
  | cons w rest ih =>
    intro h
    have hw : w ≠ [] := h w (List.mem_cons_self w rest)
    obtain ⟨a, t, rfl⟩ := List.exists_cons_of_ne_nil hw
    simp only [List.map_cons, List.take_succ_cons, List.take_zero, List.flatten_cons,
      List.singleton_append, List.headD_cons]
    rw [← ih (fun x hx => h x (List.mem_cons_of_mem _ hx))]

/-- C7: `kind_label` maps a kind with more than one whitespace-separated
word to the concatenation of the words' uppercased first letters (so
"Upper Tier Local Authority" yields "UTLA"), and returns a single-word kind
unchanged. -/
theorem kind_label_spec :
    (∀ kind : Str,
      (1 < (pySplit kind).length →
        kind_label kind = (pySplit kind).map (fun w => Char.toUpper (w.headD ' ')))
      ∧ ((pySplit kind).length = 1 → kind_label kind = kind))
    ∧ kind_label ("Upper Tier Local Authority".data) = "UTLA".data := by
  constructor
  · intro kind
    constructor
    · intro h
      rw [kind_label]
      simp only [if_pos h]
      exact flatten_take_one_upper (pySplit kind) (pySplit_ne_nil kind)
    · intro h
      rw [kind_label]
      simp only [h]
      rfl
  · decide

theorem kind_label_spec_witness :
    1 < (pySplit ("Lower Tier Local Authority".data)).length
    ∧ kind_label ("Lower Tier Local Authority".data)
        = (pySplit ("Lower Tier Local Authority".data)).map
            (fun w => Char.toUpper (w.headD ' ')) :=
  ⟨by decide, (kind_label_spec.1 ("Lower Tier Local Authority".data)).1 (by decide)⟩

/-! ### `str.replace` and `str.split(',')` (claim C8) -/

theorem raAux_skip (pat rep : Str) :
    ∀ (t s : Str), raAux pat rep (t ++ s) t.length = raAux pat rep s 0 := by
  intro t
  induction t with
  | nil => intro s; rfl
  | cons c t' ih =>
    intro s
    simp only [List.cons_append, List.length_cons]
    rw [raAux]
    exact ih s

theorem raAux_prefix_step (pat rep : Str) (hne : pat ≠ []) (s : Str) :
    raAux pat rep (pat ++ s) 0 = rep ++ raAux pat rep s 0 := by
  obtain ⟨c, pt, rfl⟩ := List.exists_cons_of_ne_nil hne
  have hpre : (c :: pt).isPrefixOf (c :: (pt ++ s)) = true := by
    have h0 : (c :: pt) <+: ((c :: pt) ++ s) := List.prefix_append (c :: pt) s
    rw [List.cons_append] at h0
    rw [ List.isPrefixOf_iff_prefix]
    exact h0
  simp only [List.cons_append]
  rw [raAux, if_pos hpre]
  simp only [List.length_cons, Nat.add_sub_cancel]
  rw [raAux_skip (c :: pt) rep pt s]

theorem raAux_no_occur (pat rep : Str) (c0 : Char) (hc : c0 ∈ pat) :
    ∀ s : Str, c0 ∉ s → raAux pat rep s 0 = s := by
  intro s
  induction s with
  | nil => intro _; rfl
  | cons c rest ih =>
    intro hn
    have hpre : pat.isPrefixOf (c :: rest) = false := by
      rw [← Bool.not_eq_true, List.isPrefixOf_iff_prefix]
      intro hp
      exact hn (hp.subset hc)
    rw [raAux, if_neg (by rw [hpre]; exact Bool.false_ne_true)]
    rw [ih (fun hm => hn (List.mem_cons_of_mem c hm))]

theorem splitSep_comma_free (sep : Char) :
    ∀ x : Str, sep ∉ x → splitSep sep x = (x, []) := by
  intro x
  induction x with
  | nil => intro _; rfl
  | cons c rest ih =>
    intro hn
    have hcs : ¬ c = sep := fun he => hn (he ▸ List.mem_cons_self c rest)
    rw [splitSep]
    simp only [ih (fun hm => hn (List.mem_cons_of_mem c hm)), if_neg hcs]

theorem splitSep_append (sep : Char) :
    ∀ (x y : Str), sep ∉ x →
      splitSep sep (x ++ sep :: y) = (x, (splitSep sep y).1 :: (splitSep sep y).2) := by
  intro x
  induction x with
  | nil =>
    intro y _
    simp only [List.nil_append]
    rw [splitSep]
    simp
  | cons c rest ih =>
    intro y hn
    have hcs : ¬ c = sep := fun he => hn (he ▸ List.mem_cons_self c rest)
    simp only [List.cons_append]
    rw [splitSep]
    simp only [ih y (fun hm => hn (List.mem_cons_of_mem c hm)), if_neg hcs]

theorem splitFull_append (sep : Char) (x y : Str) (hx : sep ∉ x) :
    splitFull sep (x ++ sep :: y) = x :: splitFull sep y := by
  rw [splitFull, splitFull, splitSep_append sep x y hx]

theorem splitFull_free (sep : Char) (x : Str) (hx : sep ∉ x) :
    splitFull sep x = [x] := by
  rw [splitFull, splitSep_comma_free sep x hx]

/-- C8: a line carrying the embedded-comma name `"Bristol, City of"` is
rewritten to the comma-free alias `City of Bristol` before field-splitting,
so the comma split of the rewritten line yields exactly the five intended
fields — kind at index 2, date at index 3, count at index 4 — the same
positions as for any row whose location has no embedded comma. -/
theorem bristol_rewrite_spec (code kind date count : Str)
    (hc1 : ',' ∉ code) (hc2 : ',' ∉ kind) (hc3 : ',' ∉ date) (hc4 : ',' ∉ count)
    (hq1 : '"' ∉ code) (hq2 : '"' ∉ kind) (hq3 : '"' ∉ date) (hq4 : '"' ∉ count) :
    splitFull ',' (replaceAll bristolPat bristolRep
        (csvRow bristolPat code kind date count))
      = [bristolRep, code, kind, date, count]
    ∧ (splitFull ',' (replaceAll bristolPat bristolRep
        (csvRow bristolPat code kind date count))).get? 2 = some kind
    ∧ (splitFull ',' (replaceAll bristolPat bristolRep
        (csvRow bristolPat code kind date count))).get? 3 = some date
    ∧ (splitFull ',' (replaceAll bristolPat bristolRep
        (csvRow bristolPat code kind date count))).get? 4 = some count
    ∧ ∀ loc : Str, ',' ∉ loc → '"' ∉ loc →
        splitFull ',' (replaceAll bristolPat bristolRep (csvRow loc code kind date count))
          = [loc, code, kind, date, count] := by
  have hrest : splitFull ','
      (code ++ (',' :: (kind ++ (',' :: (date ++ (',' :: count))))))
        = [code, kind, date, count] := by
    rw [splitFull_append ',' code _ hc1, splitFull_append ',' kind _ hc2,
      splitFull_append ',' date _ hc3, splitFull_free ',' count hc4]
  have hqtail : ('"' : Char)
      ∉ (',' :: (code ++ (',' :: (kind ++ (',' :: (date ++ (',' :: count))))))) := by
    simp only [List.mem_cons, List.mem_append, not_or]
    refine ⟨by decide, hq1, by decide, hq2, by decide, hq3, by decide, hq4⟩
  have hrepl : replaceAll bristolPat bristolRep (csvRow bristolPat code kind date count)
      = bristolRep
          ++ (',' :: (code ++ (',' :: (kind ++ (',' :: (date ++ (',' :: count))))))) := by
    rw [csvRow, replaceAll, raAux_prefix_step bristolPat bristolRep (by decide)]
    rw [raAux_no_occur bristolPat bristolRep '"' (by decide) _ hqtail]
  have hmain : splitFull ',' (replaceAll bristolPat bristolRep
      (csvRow bristolPat code kind date count))
        = [bristolRep, code, kind, date, count] := by
    rw [hrepl, splitFull_append ',' bristolRep _ (by decide), hrest]
  refine ⟨hmain, by rw [hmain]; rfl, by rw [hmain]; rfl, by rw [hmain]; rfl, ?_⟩
  intro loc hcl hql
  have hqrow : ('"' : Char) ∉ csvRow loc code kind date count := by
    rw [csvRow]
    simp only [List.mem_cons, List.mem_append, not_or]
    refine ⟨hql, by decide, hq1, by decide, hq2, by decide, hq3, by decide, hq4⟩
  have hid : replaceAll bristolPat bristolRep (csvRow loc code kind date count)
      = csvRow loc code kind date count := by
    rw [replaceAll]
    exact raAux_no_occur bristolPat bristolRep '"' (by decide) _ hqrow
  rw [hid, csvRow, splitFull_append ',' loc _ hcl, splitFull_append ',' code _ hc1,
    splitFull_append ',' kind _ hc2, splitFull_append ',' date _ hc3,
    splitFull_free ',' count hc4]

theorem bristol_rewrite_spec_witness :
    (',' : Char) ∉ ("E06000023".data)
    ∧ splitFull ',' (replaceAll bristolPat bristolRep
        (csvRow bristolPat ("E06000023".data) ("Upper Tier Local Authority".data)
          ("2020-04-06".data) ("304".data)))
      = [bristolRep, "E06000023".data, "Upper Tier Local Authority".data,
          "2020-04-06".data, "304".data] :=
  ⟨by decide,
    (bristol_rewrite_spec ("E06000023".data) ("Upper Tier Local Authority".data)
      ("2020-04-06".data) ("304".data) (by decide) (by decide) (by decide) (by decide)
      (by decide) (by decide) (by decide) (by decide)).1⟩

/-! ### `get_values` failure paths (claims C4, C10) -/

theorem splitSep_fst_no_sep (sep : Char) : ∀ s : Str, sep ∉ (splitSep sep s).1 := by
  intro s
  induction s with
  | nil => simp [splitSep]
  | cons c rest ih =>
    rcases hp : splitSep sep rest with ⟨f, fs⟩
    rw [hp] at ih
    by_cases hc : c = sep
    · simp [splitSep, hp, hc]
    · simp only [splitSep, hp, if_neg hc]
      intro hm
      rcases List.mem_cons.mp hm with h1 | h2
      · exact hc h1.symm
      · exact ih h2

theorem pyStrip_subset (s : Str) (c : Char) (hc : c ∈ pyStrip s) : c ∈ s := by
  rw [pyStrip, List.mem_reverse] at hc
  have h1 := (List.dropWhile_sublist _).subset hc
  rw [List.mem_reverse] at h1
  exact (List.dropWhile_sublist _).subset h1

theorem matchesLoc_false_of_comma (location line : Str) (hc : ',' ∈ location) :
    matchesLoc location line = false := by
  rw [matchesLoc]
  by_contra h
  rw [Bool.not_eq_false, beq_iff_eq] at h
  rw [← h] at hc
  have hmem := pyStrip_subset _ _ hc
  rw [lineParts] at hmem
  exact splitSep_fst_no_sep ',' _ hmem

theorem scanLines_no_match (location : Str) :
    ∀ (lines : List Str) (ds : List Str) (cs : List Int) (k : Option Str),
      (∀ line ∈ lines, matchesLoc location line = false) →
        scanLines location lines ds cs k = .ok (ds, cs, k) := by
  intro lines
  induction lines with
  | nil => intro ds cs k _; rfl
  | cons line rest ih =>
    intro ds cs k h
    have h0 := h line (List.mem_cons_self line rest)
    rw [scanLines, h0]
    simp only [Bool.false_eq_true, if_false]
    exact ih ds cs k (fun l hl => h l (List.mem_cons_of_mem line hl))

theorem get_values_no_match_aux (lines : List Str) (location : Str)
    (h : ∀ line ∈ lines, matchesLoc location line = false) :
    get_values lines location
      = .error ("No data found for " ++ String.mk location ++ ".") := by
  rw [get_values, scanLines_no_match location lines [] [] none h]
  rfl

/-- C4: for a location matching no row (first field, after trimming, never
equals the name), `get_values` raises the descriptive "No data found"
error and in particular never returns a (empty) result. -/
theorem get_values_no_data_error (lines : List Str) (location : Str)
    (h : ∀ line ∈ lines, matchesLoc location line = false) :
    get_values lines location
      = .error ("No data found for " ++ String.mk location ++ ".")
    ∧ ∀ r : SeriesData, get_values lines location ≠ .ok r := by
  refine ⟨get_values_no_match_aux lines location h, ?_⟩
  intro r hr
  rw [get_values_no_match_aux lines location h] at hr
  exact Except.noConfusion hr

theorem get_values_no_data_error_witness :
    (∀ line ∈ [sampleRow], matchesLoc ("Basildon".data) line = false)
    ∧ get_values [sampleRow] ("Basildon".data)
        = .error ("No data found for " ++ String.mk ("Basildon".data) ++ ".") :=
  ⟨by decide, (get_values_no_data_error [sampleRow] ("Basildon".data) (by decide)).1⟩

/-- C10: since the Bristol rewrite is applied to every line before matching,
a location name that contains a comma — in particular the original
`Bristol, City of` spelling, quoted or not — can never equal the comma-free
first field of any split line, so `get_values` always raises the "No data
found" error for it, whatever the dataset holds; the alias
`City of Bristol` does retrieve the rewritten row's data. -/
theorem get_values_comma_name_spec :
    (∀ (lines : List Str) (location : Str), ',' ∈ location →
      get_values lines location
        = .error ("No data found for " ++ String.mk location ++ "."))
    ∧ get_values [sampleRow] ("City of Bristol".data)
        = .ok ⟨["2020-04-06".data], [20200406], [304],
            "Upper Tier Local Authority".data⟩ := by
  constructor
  · intro lines location hc
    exact get_values_no_match_aux lines location
      (fun line _ => matchesLoc_false_of_comma location line hc)
  · rfl

theorem get_values_comma_name_spec_witness :
    get_values [sampleRow] ("Bristol, City of".data)
      = .error ("No data found for " ++ String.mk ("Bristol, City of".data) ++ ".") :=
  get_values_comma_name_spec.1 [sampleRow] ("Bristol, City of".data) (by decide)

/-! ### `get_values` success path (claim C1) -/

theorem get?_eq_some_getD {α : Type} (l : List α) (i : Nat) (d : α) (h : i < l.length) :
    l.get? i = some (l.getD i d) := by
  simp [List.getD, List.getElem?_eq_getElem h]

theorem findRow_cons_pos (location line : Str) (rest : List Str) (d : Str)
    (h : (matchesLoc location line && (lineDate line == d)) = true) :
    findRow location (line :: rest) d = some line := by
  simp only [findRow, List.find?_cons, h]

theorem findRow_cons_neg (location line : Str) (rest : List Str) (d : Str)
    (h : (matchesLoc location line && (lineDate line == d)) = false) :
    findRow location (line :: rest) d = findRow location rest d := by
  simp only [findRow, List.find?_cons, h]

theorem mapParseDates_total :
    ∀ l : List Str, (∀ d ∈ l, (parseDate d).isSome = true) →
      ∃ v, mapParseDates l = some v := by
  intro l
  induction l with
  | nil => intro _; exact ⟨[], rfl⟩
  | cons d rest ih =>
    intro h
    obtain ⟨x, hx⟩ := Option.isSome_iff_exists.mp (h d (List.mem_cons_self d rest))
    obtain ⟨v, hv⟩ := ih (fun e he => h e (List.mem_cons_of_mem d he))
    exact ⟨x :: v, by simp only [mapParseDates, hx, hv]⟩

theorem mapParseDates_get? :
    ∀ (l : List Str) (v : List Nat), mapParseDates l = some v →
      v.length = l.length ∧ ∀ i, v.get? i = (l.get? i).bind parseDate := by
  intro l
  induction l with
  | nil =>
    intro v hv
    simp only [mapParseDates, Option.some.injEq] at hv
    subst hv
    exact ⟨rfl, fun i => by simp⟩
  | cons d rest ih =>
    intro v hv
    rcases hp : parseDate d with _ | x
    · simp only [mapParseDates, hp] at hv
      cases hv
    · rcases hr : mapParseDates rest with _ | w
      · simp only [mapParseDates, hp, hr] at hv
        cases hv
      · simp only [mapParseDates, hp, hr, Option.some.injEq] at hv
        subst hv
        obtain ⟨hl, hg⟩ := ih w hr
        refine ⟨by simp [hl], ?_⟩
        intro i
        cases i with
        | zero => simp [hp]
        | succ j => simpa using hg j

/-- Full characterisation of the scanning loop on well-formed rows:
it succeeds, extends the accumulators by exactly the new distinct dates of
matching rows in first-seen order, and records for each newly seen date the
integer count of the first matching row bearing it. -/
theorem scanLines_spec (location : Str) :
    ∀ (lines : List Str) (ds : List Str) (cs : List Int) (k : Option Str),
      (∀ line ∈ lines, WFline location line) →
      cs.length = ds.length → ds.Nodup →
      ∃ ds' cs' k',
        scanLines location lines ds cs k = .ok (ds', cs', k')
        ∧ cs'.length = ds'.length
        ∧ ds'.Nodup
        ∧ ds <+: ds'
        ∧ cs <+: cs'
        ∧ (∀ d, d ∈ ds' ↔ d ∈ ds ∨ ∃ line ∈ lines,
            matchesLoc location line = true ∧ lineDate line = d)
        ∧ (∀ i d, ds.length ≤ i → ds'.get? i = some d →
            d ∉ ds ∧ ∃ line, findRow location lines d = some line
              ∧ ∃ n, pyInt (lineCount line) = some n ∧ cs'.get? i = some n)
        ∧ (k'.isSome = true ∨ (ds' = ds ∧ cs' = cs ∧ k' = k)) := by
  intro lines
  induction lines with
  | nil =>
    intro ds cs k _ hlen hnd
    refine ⟨ds, cs, k, rfl, hlen, hnd, List.prefix_refl ds, List.prefix_refl cs, ?_, ?_, ?_⟩
    · intro d
      constructor
      · exact Or.inl
      · rintro (h | ⟨l, hl, -⟩)
        · exact h
        · exact absurd hl (List.not_mem_nil l)
    · intro i d hile hget
      obtain ⟨hlt, -⟩ := List.get?_eq_some.mp hget
      omega
    · exact Or.inr ⟨rfl, rfl, rfl⟩
  | cons line rest ih =>
    intro ds cs k hw hlen hnd
    have hwrest : ∀ l ∈ rest, WFline location l :=
      fun l hl => hw l (List.mem_cons_of_mem line hl)
    by_cases hm : matchesLoc location line = true
    · obtain ⟨hlen3, hint, -⟩ := hw line (List.mem_cons_self line rest) hm
      have hd2 : (lineParts line).2.get? 2 = some (lineDate line) :=
        get?_eq_some_getD _ 2 [] (by omega)
      have hd3 : (lineParts line).2.get? 3 = some (lineCount line) :=
        get?_eq_some_getD _ 3 [] (by omega)
      obtain ⟨n, hn⟩ := Option.isSome_iff_exists.mp hint
      by_cases hdup : lineDate line ∈ ds
      · have hstep : scanLines location (line :: rest) ds cs k
            = scanLines location rest ds cs k := by
          simp only [scanLines, hm, hd2, hdup, reduceIte]
        obtain ⟨ds', cs', k', hscan, hclen, hnd', hp1, hp2, hmem, hidx, hkind⟩ :=
          ih ds cs k hwrest hlen hnd
        refine ⟨ds', cs', k', hstep.trans hscan, hclen, hnd', hp1, hp2, ?_, ?_, hkind⟩
        · intro d
          rw [hmem d]
          constructor
          · rintro (h | ⟨l, hl, hml, hld⟩)
            · exact Or.inl h
            · exact Or.inr ⟨l, List.mem_cons_of_mem line hl, hml, hld⟩
          · rintro (h | ⟨l, hl, hml, hld⟩)
            · exact Or.inl h
            · rcases List.mem_cons.mp hl with h1 | h2
              · subst h1
                subst hld
                exact Or.inl hdup
              · exact Or.inr ⟨l, h2, hml, hld⟩
        · intro i d hile hget
          obtain ⟨hnotin, l, hfind, hcount⟩ := hidx i d hile hget
          refine ⟨hnotin, l, ?_, hcount⟩
          have hne : lineDate line ≠ d := fun he => hnotin (he ▸ hdup)
          rw [findRow_cons_neg location line rest d (by simp [hm, hne])]
          exact hfind
      · have hstep : scanLines location (line :: rest) ds cs k
            = scanLines location rest (ds ++ [lineDate line]) (cs ++ [n])
                (some (lineKind line)) := by
          simp only [scanLines, hm, hd2, hd3, hn, hdup, reduceIte]
        have hnd1 : (ds ++ [lineDate line]).Nodup := by
          rw [List.nodup_append]
          exact ⟨hnd, List.nodup_singleton _,
            fun x hx hx' => hdup ((List.mem_singleton.mp hx') ▸ hx)⟩
        have hlen1 : (cs ++ [n]).length = (ds ++ [lineDate line]).length := by
          simp [hlen]
        obtain ⟨ds', cs', k', hscan, hclen, hnd', hp1, hp2, hmem, hidx, hkind⟩ :=
          ih (ds ++ [lineDate line]) (cs ++ [n]) (some (lineKind line)) hwrest hlen1 hnd1
        refine ⟨ds', cs', k', hstep.trans hscan, hclen, hnd',
          (List.prefix_append ds [lineDate line]).trans hp1,
          (List.prefix_append cs [n]).trans hp2, ?_, ?_, ?_⟩
        · intro d
          rw [hmem d]
          constructor
          · rintro (h | ⟨l, hl, hml, hld⟩)
            · rcases List.mem_append.mp h with h1 | h1
              · exact Or.inl h1
              · exact Or.inr ⟨line, List.mem_cons_self line rest, hm,
                  (List.mem_singleton.mp h1).symm⟩
            · exact Or.inr ⟨l, List.mem_cons_of_mem line hl, hml, hld⟩
          · rintro (h | ⟨l, hl, hml, hld⟩)
            · exact Or.inl (List.mem_append.mpr (Or.inl h))
            · rcases List.mem_cons.mp hl with h1 | h2
              · subst h1
                exact Or.inl (List.mem_append.mpr (Or.inr (by simp [hld])))
              · exact Or.inr ⟨l, h2, hml, hld⟩
        · intro i d hile hget
          rcases Nat.eq_or_lt_of_le hile with heq | hlt
          · obtain ⟨t1, ht1⟩ := hp1
            obtain ⟨t2, ht2⟩ := hp2
            have hgd : ds'.get? i = some (lineDate line) := by
              rw [← ht1, ← heq]
              rw [List.get?_append (by simp)]
              exact List.get?_concat_length ds (lineDate line)
            rw [hget] at hgd
            have hdd : d = lineDate line := Option.some_injective _ hgd
            subst hdd
            refine ⟨hdup, line, ?_, n, hn, ?_⟩
            · exact findRow_cons_pos location line rest (lineDate line) (by simp [hm])
            · rw [← ht2, ← heq, ← hlen]
              rw [List.get?_append (by simp)]
              exact List.get?_concat_length cs n
          · have hile1 : (ds ++ [lineDate line]).length ≤ i := by
              simp only [List.length_append, List.length_singleton]
              omega
            obtain ⟨hnotin, l, hfind, hcount⟩ := hidx i d hile1 hget
            have hnotds : d ∉ ds := fun h => hnotin (List.mem_append.mpr (Or.inl h))
            have hne : lineDate line ≠ d :=
              fun he => hnotin (List.mem_append.mpr (Or.inr (by simp [he])))
            refine ⟨hnotds, l, ?_, hcount⟩
            rw [findRow_cons_neg location line rest d (by simp [hm, hne])]
            exact hfind
        · rcases hkind with h | ⟨-, -, h3⟩
          · exact Or.inl h
          · exact Or.inl (by rw [h3]; rfl)
    · rw [Bool.not_eq_true] at hm
      have hstep : scanLines location (line :: rest) ds cs k
          = scanLines location rest ds cs k := by
        simp only [scanLines, hm, Bool.false_eq_true, reduceIte]
      obtain ⟨ds', cs', k', hscan, hclen, hnd', hp1, hp2, hmem, hidx, hkind⟩ :=
        ih ds cs k hwrest hlen hnd
      refine ⟨ds', cs', k', hstep.trans hscan, hclen, hnd', hp1, hp2, ?_, ?_, hkind⟩
      · intro d
        rw [hmem d]
        constructor
        · rintro (h | ⟨l, hl, hml, hld⟩)
          · exact Or.inl h
          · exact Or.inr ⟨l, List.mem_cons_of_mem line hl, hml, hld⟩
        · rintro (h | ⟨l, hl, hml, hld⟩)
          · exact Or.inl h
          · rcases List.mem_cons.mp hl with h1 | h2
            · subst h1
              rw [hml] at hm
              cases hm
            · exact Or.inr ⟨l, h2, hml, hld⟩
      · intro i d hile hget
        obtain ⟨hnotin, l, hfind, hcount⟩ := hidx i d hile hget
        refine ⟨hnotin, l, ?_, hcount⟩
        rw [findRow_cons_neg location line rest d (by simp [hm])]
        exact hfind

/-- C1: for a location with at least one (well-formed) matching row,
`get_values` succeeds and returns date and count lists of one common length,
equal to the number of distinct date values among the matching rows; the
dates are the matching rows' distinct date fields (parsed), and the count at
each position is the integer parsed from the first matching row bearing that
position's date. -/
theorem get_values_spec (lines : List Str) (location : Str)
    (hwf : ∀ line ∈ lines, WFline location line)
    (hmatch : ∃ line ∈ lines, matchesLoc location line = true) :
    ∃ r : SeriesData, get_values lines location = .ok r
      ∧ r.date_strings.Nodup
      ∧ (∀ d, d ∈ r.date_strings ↔ ∃ line ∈ lines,
          matchesLoc location line = true ∧ lineDate line = d)
      ∧ r.num_cases.length = r.date_strings.length
      ∧ r.dates.length = r.date_strings.length
      ∧ r.date_strings.length
          = (((lines.filter (fun l => matchesLoc location l)).map lineDate).dedup).length
      ∧ (∀ i, r.dates.get? i = (r.date_strings.get? i).bind parseDate)
      ∧ ∀ i d, r.date_strings.get? i = some d →
          ∃ line, findRow location lines d = some line
            ∧ ∃ n, pyInt (lineCount line) = some n ∧ r.num_cases.get? i = some n := by
  obtain ⟨ds', cs', k', hscan, hclen, hnd', hp1, hp2, hmem, hidx, hkind⟩ :=
    scanLines_spec location lines [] [] none hwf rfl List.nodup_nil
  have hmem0 : ∀ d, d ∈ ds' ↔ ∃ l ∈ lines,
      matchesLoc location l = true ∧ lineDate l = d := by
    intro d
    rw [hmem d]
    simp
  obtain ⟨l0, hl0, hml0⟩ := hmatch
  have hne : ds' ≠ [] :=
    List.ne_nil_of_mem ((hmem0 (lineDate l0)).mpr ⟨l0, hl0, hml0, rfl⟩)
  have hall : ∀ d ∈ ds', (parseDate d).isSome = true := by
    intro d hd
    obtain ⟨l, hl, hml, hld⟩ := (hmem0 d).mp hd
    exact hld ▸ (hwf l hl hml).2.2
  obtain ⟨v, hv⟩ := mapParseDates_total ds' hall
  obtain ⟨hvlen, hvget⟩ := mapParseDates_get? ds' v hv
  have hks : k'.isSome = true := by
    rcases hkind with h | ⟨h1, -, -⟩
    · exact h
    · exact absurd h1 hne
  obtain ⟨kk, hkk⟩ := Option.isSome_iff_exists.mp hks
  have hemp : ds'.isEmpty = false := by
    cases ds' with
    | nil => exact absurd rfl hne
    | cons a t => rfl
  refine ⟨⟨ds', v, cs', kk⟩, ?_, hnd', hmem0, hclen, hvlen, ?_, hvget, ?_⟩
  · simp only [get_values, hscan, hv, hemp, Bool.false_eq_true, reduceIte, hkk]
  · have hd1 : ∀ d, d ∈ ds'
        ↔ d ∈ ((lines.filter (fun l => matchesLoc location l)).map lineDate).dedup := by
      intro d
      rw [List.mem_dedup, List.mem_map, hmem0 d]
      constructor
      · rintro ⟨l, hl, hml, hld⟩
        exact ⟨l, List.mem_filter.mpr ⟨hl, hml⟩, hld⟩
      · rintro ⟨l, hlf, hld⟩
        obtain ⟨hl, hml⟩ := List.mem_filter.mp hlf
        exact ⟨l, hl, hml, hld⟩
    exact ((List.perm_ext_iff_of_nodup hnd' (List.nodup_dedup _)).mpr hd1).length_eq
  · intro i d hget
    exact (hidx i d (Nat.zero_le i) hget).2

theorem get_values_spec_witness :
    (∀ line ∈ devonLines, WFline ("Devon".data) line)
    ∧ (∃ line ∈ devonLines, matchesLoc ("Devon".data) line = true)
    ∧ ∃ r : SeriesData, get_values devonLines ("Devon".data) = .ok r
        ∧ r.date_strings.Nodup
        ∧ (∀ d, d ∈ r.date_strings ↔ ∃ line ∈ devonLines,
            matchesLoc ("Devon".data) line = true ∧ lineDate line = d)
        ∧ r.num_cases.length = r.date_strings.length
        ∧ r.dates.length = r.date_strings.length
        ∧ r.date_strings.length
            = (((devonLines.filter (fun l => matchesLoc ("Devon".data) l)).map
                lineDate).dedup).length
        ∧ (∀ i, r.dates.get? i = (r.date_strings.get? i).bind parseDate)
        ∧ ∀ i d, r.date_strings.get? i = some d →
            ∃ line, findRow ("Devon".data) devonLines d = some line
              ∧ ∃ n, pyInt (lineCount line) = some n ∧ r.num_cases.get? i = some n :=
  ⟨by decide, by decide,
    get_values_spec devonLines ("Devon".data) (by decide) (by decide)⟩

/-! ### `plot_devon` date alignment (claim C2) -/

theorem mem_zip_get? {α β : Type} :
    ∀ (l1 : List α) (l2 : List β) (q : α × β), q ∈ l1.zip l2 →
      ∃ j, l1.get? j = some q.1 ∧ l2.get? j = some q.2 := by
  intro l1
  induction l1 with
  | nil => intro l2 q h; simp at h
  | cons x xs ih =>
    intro l2 q h
    cases l2 with
    | nil => simp at h
    | cons y ys =>
      rw [List.zip_cons_cons] at h
      rcases List.mem_cons.mp h with h1 | h2
      · exact ⟨0, by simp [h1], by simp [h1]⟩
      · obtain ⟨j, hj1, hj2⟩ := ih ys q h2
        exact ⟨j + 1, by simpa using hj1, by simpa using hj2⟩

theorem nodup_get?_inj {α : Type} (l : List α) (h : l.Nodup) (i j : Nat) (a : α)
    (hi : l.get? i = some a) (hj : l.get? j = some a) : i = j := by
  obtain ⟨hi', hgi⟩ := List.get?_eq_some.mp hi
  obtain ⟨hj', hgj⟩ := List.get?_eq_some.mp hj
  have heq : l.get ⟨i, hi'⟩ = l.get ⟨j, hj'⟩ := by rw [hgi, hgj]
  have := (List.Nodup.get_inj_iff h).mp heq
  simpa using congrArg Fin.val this

theorem mem_insertSorted (d : Nat) : ∀ (l : List Nat) (a : Nat),
    a ∈ insertSorted d l ↔ a = d ∨ a ∈ l := by
  intro l
  induction l with
  | nil => intro a; simp [insertSorted]
  | cons x xs ih =>
    intro a
    rw [insertSorted]
    by_cases h1 : d < x
    · rw [if_pos h1]
      simp [List.mem_cons]
    · rw [if_neg h1]
      by_cases h2 : d = x
      · rw [if_pos h2]
        subst h2
        simp only [List.mem_cons]
        tauto
      · rw [if_neg h2]
        simp only [List.mem_cons, ih a]
        tauto

theorem sorted_insertSorted (d : Nat) : ∀ l : List Nat,
    List.Sorted (· < ·) l → List.Sorted (· < ·) (insertSorted d l) := by
  intro l
  induction l with
  | nil => intro _; simp [insertSorted]
  | cons x xs ih =>
    intro hs
    rw [List.sorted_cons] at hs
    obtain ⟨hx, hxs⟩ := hs
    rw [insertSorted]
    by_cases h1 : d < x
    · rw [if_pos h1, List.sorted_cons]
      refine ⟨?_, ?_⟩
      · intro b hb
        rcases List.mem_cons.mp hb with rfl | hb2
        · exact h1
        · exact lt_trans h1 (hx b hb2)
      · rw [List.sorted_cons]
        exact ⟨hx, hxs⟩
    · rw [if_neg h1]
      by_cases h2 : d = x
      · rw [if_pos h2, List.sorted_cons]
        exact ⟨hx, hxs⟩
      · rw [if_neg h2, List.sorted_cons]
        refine ⟨?_, ih hxs⟩
        intro b hb
        rcases (mem_insertSorted d xs b).mp hb with rfl | hb2
        · omega
        · exact hx b hb2

theorem sorted_npUnique (l : List Nat) : List.Sorted (· < ·) (npUnique l) := by
  rw [npUnique]
  induction l with
  | nil => simp
  | cons x xs ih =>
    simp only [List.foldr_cons]
    exact sorted_insertSorted x _ ih

theorem mem_npUnique (l : List Nat) (a : Nat) : a ∈ npUnique l ↔ a ∈ l := by
  rw [npUnique]
  induction l with
  | nil => simp
  | cons x xs ih =>
    simp only [List.foldr_cons, mem_insertSorted, List.mem_cons, ih]

theorem npUnique_nodup (l : List Nat) : (npUnique l).Nodup := (sorted_npUnique l).nodup

theorem npUnique_length (l : List Nat) : (npUnique l).length = l.dedup.length :=
  ((List.perm_ext_iff_of_nodup (npUnique_nodup l) (List.nodup_dedup l)).mpr
    (fun a => by rw [mem_npUnique, List.mem_dedup])).length_eq

/-- Full characterisation of the alignment of one series onto the union
axis `U`: the aligned counts have the axis's length, carry `0` exactly at
dates absent from the series, the original count at each present date, and
sum to the original total. -/
theorem alignOne_spec (U dates : List Nat) (counts : List Int)
    (hU : List.Sorted (· < ·) U)
    (hsub : ∀ d ∈ dates, d ∈ U)
    (hnd : dates.Nodup)
    (hlen : counts.length = dates.length) :
    (alignOne U dates counts).length = U.length
    ∧ (∀ i u, U.get? i = some u →
        (u ∉ dates → (alignOne U dates counts).get? i = some 0)
        ∧ (∀ j, dates.get? j = some u →
            (alignOne U dates counts).get? i = counts.get? j))
    ∧ (alignOne U dates counts).sum = counts.sum := by
  have hmmem : ∀ d, d ∈ missingDates U dates ↔ d ∈ U ∧ d ∉ dates := by
    intro d
    rw [missingDates, List.mem_filter]
    simp
  have hmnd : (missingDates U dates).Nodup := hU.nodup.filter _
  have hdisj : dates.Disjoint (missingDates U dates) := by
    intro a ha ha'
    exact ((hmmem a).mp ha').2 ha
  have hdnd : (dates ++ missingDates U dates).Nodup := by
    rw [List.nodup_append]
    exact ⟨hnd, hmnd, hdisj⟩
  have hdmem : ∀ a, a ∈ dates ++ missingDates U dates ↔ a ∈ U := by
    intro a
    rw [List.mem_append, hmmem a]
    constructor
    · rintro (h | ⟨h, -⟩)
      · exact hsub a h
      · exact h
    · intro h
      by_cases hd : a ∈ dates
      · exact Or.inl hd
      · exact Or.inr ⟨h, hd⟩
  have hperm : List.Perm (dates ++ missingDates U dates) U :=
    (List.perm_ext_iff_of_nodup hdnd hU.nodup).mpr hdmem
  have hlen' : (counts ++ (missingDates U dates).map (fun _ => (0 : Int))).length
      = (dates ++ missingDates U dates).length := by
    simp [hlen]
  have hfst : (alignPairs U dates counts).map Prod.fst
      = dates ++ missingDates U dates := by
    rw [alignPairs]
    exact List.map_fst_zip _ _ (le_of_eq hlen'.symm)
  have hsnd : (alignPairs U dates counts).map Prod.snd
      = counts ++ (missingDates U dates).map (fun _ => (0 : Int)) := by
    rw [alignPairs]
    exact List.map_snd_zip _ _ (le_of_eq hlen')
  have hplen : (alignPairs U dates counts).length = U.length := by
    have h0 := congrArg List.length hfst
    rw [List.length_map] at h0
    rw [h0]
    exact hperm.length_eq
  have hsperm : List.Perm (List.insertionSort leDC (alignPairs U dates counts))
      (alignPairs U dates counts) := List.perm_insertionSort leDC _
  have hssorted : List.Sorted leDC (List.insertionSort leDC (alignPairs U dates counts)) :=
    List.sorted_insertionSort leDC _
  have hsfst : (List.insertionSort leDC (alignPairs U dates counts)).map Prod.fst = U := by
    have h1 : List.Perm
        ((List.insertionSort leDC (alignPairs U dates counts)).map Prod.fst) U := by
      refine (hsperm.map Prod.fst).trans ?_
      rw [hfst]
      exact hperm
    have h2 : List.Sorted (· ≤ ·)
        ((List.insertionSort leDC (alignPairs U dates counts)).map Prod.fst) := by
      refine List.Pairwise.map Prod.fst ?_ hssorted
      intro a b hab
      rcases hab with h | ⟨h, -⟩
      · exact le_of_lt h
      · exact le_of_eq h
    have h3 : List.Sorted (· ≤ ·) U := hU.imp (fun h => le_of_lt h)
    exact List.eq_of_perm_of_sorted h1 h2 h3
  have hallen : (alignOne U dates counts).length = U.length := by
    rw [alignOne, List.length_map, hsperm.length_eq]
    exact hplen
  have hzip : alignPairs U dates counts
      = dates.zip counts
        ++ (missingDates U dates).zip ((missingDates U dates).map (fun _ => (0 : Int))) := by
    rw [alignPairs]
    exact List.zip_append hlen.symm
  refine ⟨hallen, ?_, ?_⟩
  · intro i u hu
    obtain ⟨hiu, -⟩ := List.get?_eq_some.mp hu
    have hisp : i < (List.insertionSort leDC (alignPairs U dates counts)).length := by
      rw [hsperm.length_eq, hplen]
      exact hiu
    obtain ⟨q, hqget⟩ : ∃ q,
        (List.insertionSort leDC (alignPairs U dates counts)).get? i = some q :=
      ⟨_, List.get?_eq_get hisp⟩
    obtain ⟨a, b⟩ := q
    have hq1 : a = u := by
      have h0 := congrArg (fun l => l.get? i) hsfst
      simp only [List.get?_map, hqget, hu] at h0
      exact Option.some_injective _ h0
    subst hq1
    have hqmem : (a, b) ∈ alignPairs U dates counts :=
      hsperm.subset (List.get?_mem hqget)
    have halget : (alignOne U dates counts).get? i = some b := by
      rw [alignOne, List.get?_map, hqget]
      rfl
    constructor
    · intro hnotin
      rw [hzip] at hqmem
      rcases List.mem_append.mp hqmem with hq2 | hq2
      · exact absurd (List.of_mem_zip hq2).1 hnotin
      · have hb0 : b = 0 := by
          have := (List.of_mem_zip hq2).2
          obtain ⟨y, -, hy⟩ := List.mem_map.mp this
          exact hy.symm
        rw [halget, hb0]
    · intro j hj
      have hudates : a ∈ dates := List.get?_mem hj
      rw [hzip] at hqmem
      rcases List.mem_append.mp hqmem with hq2 | hq2
      · obtain ⟨j', hj1, hj2⟩ := mem_zip_get? _ _ _ hq2
        have hjj : j' = j := nodup_get?_inj dates hnd j' j a hj1 hj
        subst hjj
        rw [halget, hj2]
      · exfalso
        exact ((hmmem a).mp (List.of_mem_zip hq2).1).2 hudates
  · rw [alignOne, (hsperm.map Prod.snd).sum_eq, hsnd, List.sum_append]
    have hz : (((missingDates U dates).map (fun _ => (0 : Int)))).sum = 0 := by
      apply List.sum_eq_zero
      intro x hx
      obtain ⟨y, -, hy⟩ := List.mem_map.mp hx
      exact hy.symm
    rw [hz, add_zero]

/-- C2: the union axis built by `plot_devon` is the sorted deduplicated set
of all dates across the series, with length the number of distinct dates
across all inputs combined; each series' aligned counts have the union's
length, hold `0` exactly at the positions whose date is absent from the
series and the original count at each other position, and sum to the same
total as the original series. -/
theorem plot_devon_alignment_spec (series : List (List Nat × List Int))
    (hnd : ∀ s ∈ series, s.1.Nodup)
    (hlen : ∀ s ∈ series, s.2.length = s.1.length) :
    (all_dates (series.map Prod.fst)).length
        = ((series.map Prod.fst).flatten).dedup.length
    ∧ List.Sorted (· < ·) (all_dates (series.map Prod.fst))
    ∧ (∀ d, d ∈ all_dates (series.map Prod.fst) ↔ ∃ s ∈ series, d ∈ s.1)
    ∧ ∀ s ∈ series,
        (alignOne (all_dates (series.map Prod.fst)) s.1 s.2).length
            = (all_dates (series.map Prod.fst)).length
        ∧ (∀ i u, (all_dates (series.map Prod.fst)).get? i = some u →
            (u ∉ s.1 →
              (alignOne (all_dates (series.map Prod.fst)) s.1 s.2).get? i = some 0)
            ∧ (∀ j, s.1.get? j = some u →
              (alignOne (all_dates (series.map Prod.fst)) s.1 s.2).get? i
                = s.2.get? j))
        ∧ (alignOne (all_dates (series.map Prod.fst)) s.1 s.2).sum = s.2.sum := by
  have hsorted : List.Sorted (· < ·) (all_dates (series.map Prod.fst)) := by
    rw [all_dates]
    exact sorted_npUnique _
  refine ⟨?_, hsorted, ?_, ?_⟩
  · rw [all_dates]
    exact npUnique_length _
  · intro d
    rw [all_dates, mem_npUnique, List.mem_flatten]
    constructor
    · rintro ⟨l, hl, hdl⟩
      obtain ⟨s, hs, rfl⟩ := List.mem_map.mp hl
      exact ⟨s, hs, hdl⟩
    · rintro ⟨s, hs, hdl⟩
      exact ⟨s.1, List.mem_map.mpr ⟨s, hs, rfl⟩, hdl⟩
  · intro s hs
    exact alignOne_spec (all_dates (series.map Prod.fst)) s.1 s.2 hsorted
      (fun d hd => by
        rw [all_dates, mem_npUnique, List.mem_flatten]
        exact ⟨s.1, List.mem_map.mpr ⟨s, hs, rfl⟩, hd⟩)
      (hnd s hs) (hlen s hs)

theorem plot_devon_alignment_spec_witness :
    (∀ s ∈ alignWitnessSeries, s.1.Nodup)
    ∧ (∀ s ∈ alignWitnessSeries, s.2.length = s.1.length)
    ∧ ((all_dates (alignWitnessSeries.map Prod.fst)).length
          = ((alignWitnessSeries.map Prod.fst).flatten).dedup.length
      ∧ List.Sorted (· < ·) (all_dates (alignWitnessSeries.map Prod.fst))
      ∧ (∀ d, d ∈ all_dates (alignWitnessSeries.map Prod.fst)
          ↔ ∃ s ∈ alignWitnessSeries, d ∈ s.1)
      ∧ ∀ s ∈ alignWitnessSeries,
          (alignOne (all_dates (alignWitnessSeries.map Prod.fst)) s.1 s.2).length
              = (all_dates (alignWitnessSeries.map Prod.fst)).length
          ∧ (∀ i u, (all_dates (alignWitnessSeries.map Prod.fst)).get? i = some u →
              (u ∉ s.1 →
                (alignOne (all_dates (alignWitnessSeries.map Prod.fst))
                  s.1 s.2).get? i = some 0)
              ∧ (∀ j, s.1.get? j = some u →
                (alignOne (all_dates (alignWitnessSeries.map Prod.fst))
                  s.1 s.2).get? i = s.2.get? j))
          ∧ (alignOne (all_dates (alignWitnessSeries.map Prod.fst)) s.1 s.2).sum
              = s.2.sum) :=
  ⟨by decide, by decide,
    plot_devon_alignment_spec alignWitnessSeries (by decide) (by decide)⟩
